import Mathlib

/-!
# Verification of the golden-ratio fractal codec (src/Phi-fractal-codec.js)

Shallow embedding of the self-similarity codec in `GoldenRatioFractalCodec`.
Sample values are modelled as exact rationals (`ℚ`); the JavaScript floating
point arithmetic is modelled as exact real arithmetic.

The only irrational quantities in the code are
* `PHI_INV = 1/φ = (√5 - 1)/2`, used through `Math.floor(m * PHI_INV^k)`, and
* the Pearson correlation value `num / Math.sqrt(den2)`.

Both are embedded exactly:
* `phiInvPowFloor m k` computes `⌊m * PHI_INV^k⌋` by exact arithmetic on
  numbers of the form `p + q√5` (`p q : ℚ`); the theorem
  `phiInvPowFloor_eq_floor` certifies it against the real-number expression.
* a correlation value is carried as the pair `Corr` of its numerator `num`
  and the square `denSq` of its denominator (both rational); the value the
  code computes is `num / √denSq`.  The code only ever compares correlations
  against thresholds, and for a nonnegative threshold `t` and `denSq > 0`
  the comparison `num / √denSq > t` is equivalent to the rational
  (decidable) statement `0 < num ∧ t² * denSq < num²`, which is how the
  predicates `corrGtB` / `corrLe1` below are phrased.

Names follow the source where the environment allows it; field and function
names that the source spells `compressionRatio` / `calculateCompressionRatio`
appear here with a `Q` suffix (`compressionRatioQ`, `calculateCompressionRatioQ`).
-/

namespace PhiCodec

/-! ## Exact floor of `m * PHI_INV ^ k`

`PHI_INV = (√5 - 1)/2`.  A number `p + q·√5` (`p q : ℚ`) is multiplied by
`PHI_INV` via `(p, q) ↦ ((5q - p)/2, (p - q)/2)`.  The floor of a value
known to lie in `[0, bound]` is recovered by counting the integers
`n ∈ {0, …, bound}` with `n ≤ p + q·√5`. -/

/-- Decide `r ≤ q * √5` for rationals `r q` (see `rleQSqrt5_iff`). -/
def rleQSqrt5 (r q : ℚ) : Bool :=
  if 0 ≤ q then decide (r ≤ 0) || decide (r ^ 2 ≤ 5 * q ^ 2)
  else decide (r ≤ 0) && decide (5 * q ^ 2 ≤ r ^ 2)

/-- Floor of `p + q·√5`, assuming the value lies in `[0, bound]`:
count the `n ∈ {0, …, bound}` below the value, minus one. -/
def floorPQ (p q : ℚ) (bound : ℕ) : ℕ :=
  ((List.range (bound + 1)).filter fun n : ℕ => rleQSqrt5 ((n : ℚ) - p) q).length - 1

/-- One multiplication of `p + q·√5` by `PHI_INV = (√5 - 1)/2`. -/
def phiInvStep (pq : ℚ × ℚ) : ℚ × ℚ :=
  ((5 * pq.2 - pq.1) / 2, (pq.1 - pq.2) / 2)

/-- Exact value of `Math.floor(m * Math.pow(PHI_INV, k))` used by the code
for segment sizes (`detectFractalPatterns`) and for the segmentation step
(`segmentData`, with `k = 1`). -/
def phiInvPowFloor (m k : ℕ) : ℕ :=
  let pq := phiInvStep^[k] ((m : ℚ), 0)
  floorPQ pq.1 pq.2 m

/-! ## Correlation (`calculateCorrelation`, lines 125-139) -/

/-- An exact representation of a correlation value: the float the code
computes is `num / √denSq`.  The code's literal `return 0` branches are
represented by `⟨0, 1⟩` (whose value is `0 / √1 = 0`). -/
structure Corr where
  num : ℚ
  denSq : ℚ
deriving Repr, DecidableEq

/-- The representation of the correlation value `0`. -/
def Corr.zero : Corr := ⟨0, 1⟩

/-- For a threshold `t ≥ 0` and `denSq > 0`, this decides
`num / √denSq > t` without leaving `ℚ`. -/
def corrGtB (c : Corr) (t : ℚ) : Bool :=
  decide (0 < c.num) && decide (t ^ 2 * c.denSq < c.num ^ 2)

/-- For `denSq > 0`, this states `num / √denSq ≤ 1` without leaving `ℚ`. -/
def corrLe1 (c : Corr) : Prop :=
  c.num ≤ 0 ∨ c.num ^ 2 ≤ c.denSq

instance (c : Corr) : Decidable (corrLe1 c) := by
  unfold corrLe1; infer_instance

/-- Numerator of the Pearson coefficient of `arr1`, `arr2`:
`pSum - sum1 * sum2 / n`. -/
def corrNum (arr1 arr2 : List ℚ) : ℚ :=
  (List.zipWith (· * ·) arr1 arr2).sum -
    arr1.sum * arr2.sum / (arr1.length : ℚ)

/-- The variance-like term `sumSq - sum² / n` of one vector (`n` times the
variance); the code's squared denominator is the product of two of these. -/
def varTerm (arr : List ℚ) : ℚ :=
  (arr.map fun a => a * a).sum - arr.sum * arr.sum / (arr.length : ℚ)

/-- `calculateCorrelation` (lines 125-139).  Returns the exact `Corr`
representation of the float the code returns: `0` on length mismatch, `0`
when the denominator `√(varTerm arr1 * varTerm arr2)` is zero, and
otherwise the Pearson coefficient `corrNum / √(varTerm·varTerm)`. -/
def calculateCorrelation (arr1 arr2 : List ℚ) : Corr :=
  if arr1.length ≠ arr2.length then Corr.zero
  else
    let den2 := varTerm arr1 * varTerm arr2
    if den2 = 0 then Corr.zero
    else ⟨corrNum arr1 arr2, den2⟩

/-! ## Segmentation (`segmentData`, lines 79-88)

The JavaScript loop `for (i = 0; i < data.length - segmentSize + 1; i += step)`
does not terminate when `step = Math.floor(segmentSize * PHI_INV)` is `0`
and the bound is positive.  It is embedded with explicit fuel: `none` means
the loop did not finish within `fuel` iterations (for `step ≥ 1`, fuel
`data.length + 1` always suffices, see `segmentLoop_some`).  The loop
guard `i < data.length - segmentSize + 1` (JavaScript signed arithmetic)
is written as the equivalent `i + segmentSize ≤ data.length`. -/

/-- One segment: a value-copy `data.slice(i, i + segmentSize)` and its
starting offset. -/
structure Segment where
  data : List ℚ
  position : ℕ
deriving Repr, DecidableEq

/-- The segmentation loop body, with fuel. -/
def segmentLoop (data : List ℚ) (segmentSize step : ℕ) :
    ℕ → ℕ → Option (List Segment)
  | i, 0 =>
    if i + segmentSize ≤ data.length then none else some []
  | i, fuel + 1 =>
    if i + segmentSize ≤ data.length then
      (segmentLoop data segmentSize step (i + step) fuel).map
        (fun rest => ⟨(data.drop i).take segmentSize, i⟩ :: rest)
    else some []

/-- `segmentData` (lines 79-88): step `Math.floor(segmentSize * PHI_INV)`.
In the pipeline `segmentSize ≥ 4`, so the step is at least `2` and the fuel
`data.length + 1` suffices; the `getD []` default is never taken there. -/
def segmentData (data : List ℚ) (segmentSize : ℕ) : List Segment :=
  (segmentLoop data segmentSize (phiInvPowFloor segmentSize 1) 0
    (data.length + 1)).getD []

/-! ## Similarity search (`findSimilarSegments`, lines 93-120) -/

/-- One match record `{index, position, correlation}`. -/
structure MatchRec where
  index : ℕ
  position : ℕ
  correlation : Corr
deriving Repr, DecidableEq

/-- One cluster `{masterIndex, masterPosition, masterData, matches}`; the
source field `matches` is called `matchList` (`matches` is a keyword). -/
structure Cluster where
  masterIndex : ℕ
  masterPosition : ℕ
  masterData : List ℚ
  matchList : List MatchRec
deriving Repr, DecidableEq

/-- `findSimilarSegments` (lines 93-120): upper-triangular scan; segment `i`
becomes a cluster master iff some later segment correlates above
`1 - THRESHOLD = 0.99`. -/
def findSimilarSegments (segments : List Segment) : List Cluster :=
  (List.range segments.length).filterMap fun i =>
    let si := segments.getD i ⟨[], 0⟩
    let ms := ((List.range segments.length).drop (i + 1)).filterMap fun j =>
      let sj := segments.getD j ⟨[], 0⟩
      let c := calculateCorrelation si.data sj.data
      if corrGtB c (1 - 1 / 100) then some ⟨j, sj.position, c⟩ else none
    if ms.length > 0 then some ⟨i, si.position, si.data, ms⟩ else none

/-! ## Compression-ratio estimate (`calculateCompressionRatio`, lines 144-156) -/

/-- One step of the `forEach` in `calculateCompressionRatio`: accumulate
`(totalSaved, totalOriginal)` with `originalSize = S * (1 + matches)` and
`compressedSize = S + matches * 8` (8 bytes per position reference). -/
def ratioStep (segmentSize : ℕ) (acc : ℚ × ℚ) (sim : Cluster) : ℚ × ℚ :=
  let originalSize : ℚ := segmentSize * (1 + sim.matchList.length)
  let compressedSize : ℚ := segmentSize + sim.matchList.length * 8
  (acc.1 + (originalSize - compressedSize), acc.2 + originalSize)

/-- `calculateCompressionRatio` (lines 144-156); the accumulating `forEach`
is the `foldl` of `ratioStep` over the cluster list.
Source name: `calculateCompressionRatio`. -/
def calculateCompressionRatioQ (similarities : List Cluster) (segmentSize : ℕ) : ℚ :=
  let acc := similarities.foldl (ratioStep segmentSize) (0, 0)
  if acc.2 > 0 then acc.1 / acc.2 else 0

/-! ## Pattern detection (`detectFractalPatterns`, lines 51-74) -/

/-- One per-scale result `{scale, segmentSize, patterns, compressionRatio}`;
the last field is named `compressionRatioQ` here. -/
structure ScaleResult where
  scale : ℕ
  segmentSize : ℕ
  patterns : List Cluster
  compressionRatioQ : ℚ
deriving Repr, DecidableEq

/-- `detectFractalPatterns` (lines 51-74): scales `1..8`, stopping (the
`break`) at the first scale whose segment size drops below `4`; scales with
at least one cluster are kept and sorted by descending estimated ratio
(JavaScript `Array.prototype.sort` is stable, as is `List.mergeSort`). -/
def detectFractalPatterns (data : List ℚ) : List ScaleResult :=
  let scales := (List.range' 1 8).takeWhile
    (fun scale => decide (4 ≤ phiInvPowFloor data.length scale))
  let patterns := scales.filterMap fun scale =>
    let segmentSize := phiInvPowFloor data.length scale
    let similarities := findSimilarSegments (segmentData data segmentSize)
    if similarities.length > 0 then
      some ⟨scale, segmentSize, similarities,
        calculateCompressionRatioQ similarities segmentSize⟩
    else none
  patterns.mergeSort (fun a b => decide (b.compressionRatioQ ≤ a.compressionRatioQ))

/-! ## Encoded structure (`createEncodedStructure`, lines 198-243)

The header's `phi` field (the float constant `PHI`) is never read by any
other routine and is omitted; the remaining header fields are inlined. -/

/-- One master-segment record `{position, data}`. -/
structure MasterSeg where
  position : ℕ
  data : List ℚ
deriving Repr, DecidableEq

/-- One reference record `{masterIndex, position, correlation}`. -/
structure Reference where
  masterIndex : ℕ
  position : ℕ
  correlation : Corr
deriving Repr, DecidableEq

/-- One residual record `{position, value}`. -/
structure Residual where
  position : ℕ
  value : ℚ
deriving Repr, DecidableEq

/-- The persisted artifact: header (minus the constant `phi`), master
segments, references and residual records. -/
structure EncodedStructure where
  scale : ℕ
  segmentSize : ℕ
  originalLength : ℕ
  masterSegments : List MasterSeg
  references : List Reference
  residual : List Residual
deriving Repr, DecidableEq

/-- The inner `forEach` of `createEncodedStructure`: push one reference
record per match, all pointing at the master with index `masterIndex`. -/
def refStep (masterIndex : ℕ) (st : EncodedStructure) (sm : MatchRec) :
    EncodedStructure :=
  { st with references :=
      st.references ++ [⟨masterIndex, sm.position, sm.correlation⟩] }

/-- The outer `forEach` of `createEncodedStructure`: push the cluster's
master record, record the used positions, and push its references (the
code's `structure.masterSegments.length - 1` is the index of the master
just pushed). -/
def encodeClusterStep (acc : EncodedStructure × List ℕ) (sim : Cluster) :
    EncodedStructure × List ℕ :=
  let st := acc.1
  let st1 := { st with masterSegments :=
    st.masterSegments ++ [⟨sim.masterPosition, sim.masterData⟩] }
  let used1 := acc.2 ++ [sim.masterPosition]
  let st2 := sim.matchList.foldl (refStep (st1.masterSegments.length - 1)) st1
  (st2, used1 ++ sim.matchList.map MatchRec.position)

/-- `createEncodedStructure` (lines 198-243).  The JavaScript `Set` of used
positions is a `List ℕ` queried by membership; each cluster appends its
master record plus one reference per match, then every offset not in the
used set becomes a residual carrying the raw input value. -/
def createEncodedStructure (data : List ℚ) (pattern : ScaleResult) :
    EncodedStructure :=
  let st0 : EncodedStructure :=
    ⟨pattern.scale, pattern.segmentSize, data.length, [], [], []⟩
  let stu := pattern.patterns.foldl encodeClusterStep (st0, [])
  { stu.1 with
    residual := (List.range data.length).filterMap fun i =>
      if i ∈ stu.2 then none else some ⟨i, data.getD i 0⟩ }

/-- `calculateEncodedSize` (lines 290-296). -/
def calculateEncodedSize (structure' : EncodedStructure) : ℕ :=
  32 + structure'.masterSegments.length * structure'.segmentSize * 4 +
    structure'.references.length * 12 + structure'.residual.length * 8

/-! ## Encode (`encode`, lines 161-193)

The wall-clock fields (`processingTime`) and the failure `message` string
are not modelled; every other field of the result object is. -/

/-- The tagged result of `encode`; `patterns` is the count of pattern sets
found (the code returns `patterns.length`), `goldenRatioScale` the winning
scale.  Source field `compressionRatio` is `compressionRatioQ`. -/
structure EncodeResult where
  success : Bool
  encoded : Option EncodedStructure
  originalSize : ℕ
  compressedSize : ℕ
  compressionRatioQ : ℚ
  patterns : ℕ
  goldenRatioScale : ℕ
deriving Repr, DecidableEq

/-- `encode` (lines 161-193): detect patterns; on an empty pattern list
return the failure result (`success: false`, sizes equal, ratio `0`),
otherwise encode with the best (first-ranked) pattern. -/
def encode (data : List ℚ) : EncodeResult :=
  let patterns := detectFractalPatterns data
  match patterns with
  | [] => ⟨false, none, data.length, data.length, 0, 0, 0⟩
  | best :: _ =>
    let encoded := createEncodedStructure data best
    ⟨true, some encoded, data.length, calculateEncodedSize encoded,
      best.compressionRatioQ, patterns.length, best.scale⟩

/-! ## Decode (`decode`, lines 248-285)

The reconstructed array starts as `new Array(originalLength)` (all slots
unset, modelled as `none`): each write is guarded in the source by
`position + i < reconstructed.length`, which is exactly the out-of-bounds
no-op behaviour of `List.set`. -/

/-- Write the values `vals` at consecutive offsets starting at `pos`,
skipping (as the source's bound check does) writes past the end. -/
def writeSeg : List (Option ℚ) → ℕ → List ℚ → List (Option ℚ)
  | recon, _, [] => recon
  | recon, pos, v :: vs => writeSeg (recon.set pos (some v)) (pos + 1) vs

/-- The body of `decode` (lines 253-284), acting on the structure: write
each master segment and then the references pointing at it (that is the
source's nesting: references are replayed inside the per-master loop),
masters in list order; then write every residual value. -/
def decodeStructure (structure' : EncodedStructure) : List (Option ℚ) :=
  let recon0 : List (Option ℚ) := List.replicate structure'.originalLength none
  let recon1 := structure'.masterSegments.enum.foldl
    (fun recon mi =>
      let afterMaster := writeSeg recon mi.2.position mi.2.data
      (structure'.references.filter fun ref => ref.masterIndex == mi.1).foldl
        (fun r ref => writeSeg r ref.position mi.2.data) afterMaster)
    recon0
  structure'.residual.foldl
    (fun r res => r.set res.position (some res.value)) recon1

/-- `decode` (lines 248-285): throws (`none` here) on a failure-flagged
result, otherwise decodes the contained structure. -/
def decode (encoded : EncodeResult) : Option (List (Option ℚ)) :=
  if encoded.success then encoded.encoded.map decodeStructure else none

/-! ## Write-event view of decoding

Each write the decoder performs is an event `(position, values)`;
`lastWriteAt` evaluates a list of events under last-writer-wins.  The
events in the order the code performs them are `segEvents`; the order the
specification describes (all masters, then all references, then all
residuals) is `threePhaseEvents`. -/

/-- The value event `e` writes at offset `o`, if any. -/
def eventValueAt (e : ℕ × List ℚ) (o : ℕ) : Option ℚ :=
  if e.1 ≤ o then e.2.get? (o - e.1) else none

/-- Last-writer-wins evaluation of an event list at offset `o`. -/
def lastWriteAt (events : List (ℕ × List ℚ)) (o : ℕ) : Option ℚ :=
  events.foldl
    (fun acc e =>
      match eventValueAt e o with
      | some v => some v
      | none => acc)
    none

/-- The decoder's writes in the order the code performs them: for each
master (in list order) the master's values, then one copy of the master's
values per reference pointing at it; after all masters, the residuals. -/
def segEvents (structure' : EncodedStructure) : List (ℕ × List ℚ) :=
  (structure'.masterSegments.enum.flatMap fun mi =>
    (mi.2.position, mi.2.data) ::
      ((structure'.references.filter fun ref => ref.masterIndex == mi.1).map
        fun ref => (ref.position, mi.2.data))) ++
    structure'.residual.map fun res => (res.position, [res.value])

/-- Modelled from the spec: the claimed three strictly separated decode
phases — every master segment in master-list order, then every reference
in reference-list order (copying its master's values), then every
residual. -/
def threePhaseEvents (structure' : EncodedStructure) : List (ℕ × List ℚ) :=
  (structure'.masterSegments.map fun m => (m.position, m.data)) ++
    (structure'.references.map fun ref =>
      (ref.position, (structure'.masterSegments.getD ref.masterIndex ⟨0, []⟩).data)) ++
    structure'.residual.map fun res => (res.position, [res.value])

/-- Modelled from the spec: the Ratio Estimator contract of §4.4 with its
stated fixed cost of 12 units per reference
(`compressedSize = S + matchCount * 12`), for comparison with the code's
`calculateCompressionRatioQ`. -/
def specCompressionRatio12 (similarities : List Cluster) (segmentSize : ℕ) : ℚ :=
  let totalSaved : ℚ := (similarities.map fun sim =>
    (segmentSize * (1 + sim.matchList.length) : ℚ) -
      (segmentSize + sim.matchList.length * 12)).sum
  let totalOriginal : ℚ := (similarities.map fun sim =>
    (segmentSize * (1 + sim.matchList.length) : ℚ)).sum
  if similarities = [] then 0 else totalSaved / totalOriginal

/-! ## Derived notions used by the statements and proofs -/

/-- The real correlation value a `Corr` pair stands for: `num / √denSq`
(the float `calculateCorrelation` returns). -/
noncomputable def Corr.score (c : Corr) : ℝ :=
  (c.num : ℝ) / Real.sqrt (c.denSq : ℝ)

/-- Offset `o` is reachable by some record of the structure: it lies in a
master segment's covered range, or in a reference's covered range (the
range decode copies the referenced master's values onto), or it is a
residual record's offset. -/
def coversOffset (structure' : EncodedStructure) (o : ℕ) : Prop :=
  (∃ m ∈ structure'.masterSegments,
    m.position ≤ o ∧ o < m.position + m.data.length) ∨
  (∃ ref ∈ structure'.references,
    ref.position ≤ o ∧
      o < ref.position +
        (structure'.masterSegments.getD ref.masterIndex ⟨0, []⟩).data.length) ∨
  (∃ res ∈ structure'.residual, res.position = o)

/-- Replay a list of write events over a reconstruction buffer. -/
def applyEvents (recon : List (Option ℚ)) (events : List (ℕ × List ℚ)) :
    List (Option ℚ) :=
  events.foldl (fun r e => writeSeg r e.1 e.2) recon

/-- Closed form of the references `createEncodedStructure` emits for the
clusters `cls` when `base` masters have already been stored: each cluster
contributes one reference per match, pointing at that cluster's master. -/
def refsOf (base : ℕ) : List Cluster → List Reference
  | [] => []
  | cl :: cls =>
    cl.matchList.map (fun sm => ⟨base, sm.position, sm.correlation⟩) ++
      refsOf (base + 1) cls

/-- Closed form of the `usedPositions` set `createEncodedStructure` builds:
every cluster's master offset and every match offset. -/
def coveredPositions (cls : List Cluster) : List ℕ :=
  cls.flatMap fun cl => cl.masterPosition :: cl.matchList.map MatchRec.position

/-- Concrete input (length 7) whose encode succeeds: the windows
`[0,1,2,3]` and `[2,3,4,5]` at offsets 0 and 2 correlate exactly. -/
def exData7 : List ℚ := [0, 1, 2, 3, 4, 5, 6]

/-- The structure `encode exData7` produces (see `claim_C1_witness`). -/
def exSt7 : EncodedStructure :=
  ⟨1, 4, 7, [⟨0, [0, 1, 2, 3]⟩], [⟨0, 2, ⟨5, 25⟩⟩],
    [⟨1, 1⟩, ⟨3, 3⟩, ⟨4, 4⟩, ⟨5, 5⟩, ⟨6, 6⟩]⟩

/-- Concrete input (length 11) whose encode succeeds with two masters,
where the second master's segment starts at an offset that is also a
reference of the first master — the input that separates the decoder's
actual (interleaved) write order from the three-phase order. -/
def exData11 : List ℚ := [0, 1, 2, 3, 4, 5, 6, 7, 0, 0, 0]

/-- The structure `encode exData11` produces (see `claim_C4_counterexample`). -/
def exSt11 : EncodedStructure :=
  ⟨2, 4, 11,
    [⟨0, [0, 1, 2, 3]⟩, ⟨2, [2, 3, 4, 5]⟩],
    [⟨0, 2, ⟨5, 25⟩⟩, ⟨0, 4, ⟨5, 25⟩⟩, ⟨1, 4, ⟨5, 25⟩⟩],
    [⟨1, 1⟩, ⟨3, 3⟩, ⟨5, 5⟩, ⟨6, 6⟩, ⟨7, 7⟩, ⟨8, 0⟩, ⟨9, 0⟩, ⟨10, 0⟩]⟩

/-! # Proofs -/

/-! ## Certification of the exact floor against the real-number semantics

`phiInvPowFloor m k` is proved equal to `⌊m * ((√5 - 1)/2) ^ k⌋`, the
exact value of the code's `Math.floor(m * Math.pow(PHI_INV, k))`. -/

/-- `rleQSqrt5` decides `r ≤ q·√5`. -/
lemma rleQSqrt5_iff (r q : ℚ) :
    rleQSqrt5 r q = true ↔ (r : ℝ) ≤ (q : ℝ) * Real.sqrt 5 := by
  have hs5 : (0 : ℝ) < Real.sqrt 5 := Real.sqrt_pos.mpr (by norm_num)
  unfold rleQSqrt5
  by_cases hq : 0 ≤ q
  · have hqR : (0 : ℝ) ≤ (q : ℝ) := by exact_mod_cast hq
    rw [if_pos hq]
    simp only [Bool.or_eq_true, decide_eq_true_iff]
    have hq5 : (q : ℝ) * Real.sqrt 5 = Real.sqrt (5 * q ^ 2) := by
      rw [show (5 : ℝ) * (q : ℝ) ^ 2 = (q : ℝ) ^ 2 * 5 by ring,
        Real.sqrt_mul (sq_nonneg _), Real.sqrt_sq hqR]
    constructor
    · rintro (hr | hr)
      · have : (r : ℝ) ≤ 0 := by exact_mod_cast hr
        exact this.trans (mul_nonneg hqR hs5.le)
      · rcases le_or_lt (r : ℝ) 0 with h0 | h0
        · exact h0.trans (mul_nonneg hqR hs5.le)
        · rw [hq5]
          refine (Real.le_sqrt h0.le (by positivity)).mpr ?_
          exact_mod_cast hr
    · intro h
      rcases le_or_lt r 0 with h0 | h0
      · exact Or.inl h0
      · right
        have hrR : (0 : ℝ) < (r : ℝ) := by exact_mod_cast h0
        have hsq : (r : ℝ) ^ 2 ≤ ((q : ℝ) * Real.sqrt 5) ^ 2 :=
          pow_le_pow_left hrR.le h 2
        rw [mul_pow, Real.sq_sqrt (by norm_num : (0 : ℝ) ≤ 5)] at hsq
        have : (r : ℝ) ^ 2 ≤ 5 * (q : ℝ) ^ 2 := by linarith
        exact_mod_cast this
  · rw [if_neg hq]
    push_neg at hq
    have hqR : (q : ℝ) < 0 := by exact_mod_cast hq
    have hq5neg : (q : ℝ) * Real.sqrt 5 < 0 := mul_neg_of_neg_of_pos hqR hs5
    have hnq : -(q : ℝ) * Real.sqrt 5 = Real.sqrt (5 * q ^ 2) := by
      rw [show (5 : ℝ) * (q : ℝ) ^ 2 = (-(q : ℝ)) ^ 2 * 5 by ring,
        Real.sqrt_mul (sq_nonneg _), Real.sqrt_sq (by linarith)]
    simp only [Bool.and_eq_true, decide_eq_true_iff]
    constructor
    · rintro ⟨hr0, hr⟩
      have hrR : (r : ℝ) ≤ 0 := by exact_mod_cast hr0
      have h2 : Real.sqrt (5 * (q : ℝ) ^ 2) ≤ -(r : ℝ) := by
        refine Real.sqrt_le_iff.mpr ⟨by linarith, ?_⟩
        have : 5 * (q : ℝ) ^ 2 ≤ (r : ℝ) ^ 2 := by exact_mod_cast hr
        calc 5 * (q : ℝ) ^ 2 ≤ (r : ℝ) ^ 2 := this
          _ = (-(r : ℝ)) ^ 2 := by ring
      have hcast : (((5 * q ^ 2 : ℚ)) : ℝ) = 5 * (q : ℝ) ^ 2 := by push_cast; ring
      linarith [hnq ▸ h2.trans_eq rfl]
    · intro h
      have hrR : (r : ℝ) < 0 := lt_of_le_of_lt h hq5neg
      refine ⟨by exact_mod_cast hrR.le, ?_⟩
      have h1 : -(q : ℝ) * Real.sqrt 5 ≤ -(r : ℝ) := by linarith
      have h2 : 0 ≤ -(q : ℝ) * Real.sqrt 5 :=
        mul_nonneg (by linarith) hs5.le
      have h3 := pow_le_pow_left h2 h1 2
      have h4 : (-(q : ℝ) * Real.sqrt 5) ^ 2 = 5 * (q : ℝ) ^ 2 := by
        rw [mul_pow, Real.sq_sqrt (by norm_num : (0 : ℝ) ≤ 5)]
        ring
      have h5 : 5 * (q : ℝ) ^ 2 ≤ (r : ℝ) ^ 2 := by
        calc 5 * (q : ℝ) ^ 2 = (-(q : ℝ) * Real.sqrt 5) ^ 2 := h4.symm
          _ ≤ (-(r : ℝ)) ^ 2 := h3
          _ = (r : ℝ) ^ 2 := by ring
      exact_mod_cast h5

/-- Counting the members of `range m` below a threshold `K`. -/
lemma range_filter_le_length (f : ℕ → Bool) (K : ℕ)
    (hf : ∀ n, f n = true ↔ n ≤ K) :
    ∀ m, ((List.range m).filter f).length = min (K + 1) m := by
  intro m
  induction m with
  | zero => simp
  | succ m ih =>
    rw [List.range_succ, List.filter_append, List.length_append, ih]
    by_cases hm : m ≤ K
    · have hfm : f m = true := (hf m).mpr hm
      simp only [List.filter_cons, hfm, List.filter_nil, List.length_cons,
        List.length_nil, if_true]
      omega
    · have hfm : f m = false :=
        Bool.eq_false_iff.mpr fun h => hm ((hf m).mp h)
      simp only [List.filter_cons, hfm, List.filter_nil, List.length_nil,
        Bool.false_eq_true, if_false]
      omega

/-- `floorPQ` computes the floor of `p + q·√5` for a value in `[0, bound]`. -/
lemma floorPQ_eq (p q : ℚ) (bound : ℕ) (v : ℝ)
    (hv : (p : ℝ) + (q : ℝ) * Real.sqrt 5 = v) (h0 : 0 ≤ v)
    (hb : v < (bound : ℝ) + 1) :
    (floorPQ p q bound : ℤ) = ⌊v⌋ := by
  have hfloor0 : 0 ≤ ⌊v⌋ := Int.le_floor.mpr (by exact_mod_cast h0)
  have hfloorb : ⌊v⌋ < (bound : ℤ) + 1 := by
    rw [Int.floor_lt]
    push_cast
    exact hb
  set K : ℕ := ⌊v⌋.toNat with hK
  have hKv : ((K : ℝ)) ≤ v := by
    have h1 : ((⌊v⌋ : ℝ)) ≤ v := Int.floor_le v
    have h2 : ((K : ℤ) : ℝ) = ((⌊v⌋ : ℝ)) := by
      rw [hK, Int.toNat_of_nonneg hfloor0]
    exact_mod_cast h2 ▸ h1
  have hpred : ∀ n : ℕ, (rleQSqrt5 ((n : ℚ) - p) q = true) ↔ n ≤ K := by
    intro n
    rw [rleQSqrt5_iff]
    have hcast : (((n : ℚ) - p : ℚ) : ℝ) = (n : ℝ) - (p : ℝ) := by push_cast; ring
    rw [hcast]
    constructor
    · intro h
      have hnv : (n : ℝ) ≤ v := by rw [← hv]; linarith
      have : (n : ℤ) ≤ ⌊v⌋ := Int.le_floor.mpr (by exact_mod_cast hnv)
      omega
    · intro h
      have : (n : ℝ) ≤ (K : ℝ) := by exact_mod_cast h
      have hnv : (n : ℝ) ≤ v := this.trans hKv
      rw [← hv] at hnv
      linarith
  unfold floorPQ
  rw [range_filter_le_length _ K hpred (bound + 1)]
  have hKb : K + 1 ≤ bound + 1 := by omega
  rw [min_eq_left hKb]
  omega

/-- Each application of `phiInvStep` multiplies the represented value
`p + q·√5` by `PHI_INV = (√5 - 1)/2`. -/
lemma phiInvStep_value (m k : ℕ) :
    ((phiInvStep^[k] ((m : ℚ), 0)).1 : ℝ) +
        ((phiInvStep^[k] ((m : ℚ), 0)).2 : ℝ) * Real.sqrt 5 =
      (m : ℝ) * ((Real.sqrt 5 - 1) / 2) ^ k := by
  induction k with
  | zero => simp
  | succ k ih =>
    rw [Function.iterate_succ_apply']
    set pq := phiInvStep^[k] ((m : ℚ), 0) with hpq
    have hstep : phiInvStep pq = ((5 * pq.2 - pq.1) / 2, (pq.1 - pq.2) / 2) := rfl
    rw [hstep]
    have hs : Real.sqrt 5 ^ 2 = 5 := Real.sq_sqrt (by norm_num)
    have hgoal : (((5 * pq.2 - pq.1) / 2 : ℚ) : ℝ) +
        (((pq.1 - pq.2) / 2 : ℚ) : ℝ) * Real.sqrt 5 =
        ((pq.1 : ℝ) + (pq.2 : ℝ) * Real.sqrt 5) * ((Real.sqrt 5 - 1) / 2) := by
      push_cast
      linear_combination (-(pq.2 : ℝ) / 2) * hs
    rw [hgoal, ih, pow_succ]
    ring

/-- `PHI_INV = (√5 - 1)/2` lies in `(0, 1)`. -/
lemma phiInv_mem_Ioo :
    (0 : ℝ) < (Real.sqrt 5 - 1) / 2 ∧ (Real.sqrt 5 - 1) / 2 < 1 := by
  have h1 : (1 : ℝ) < Real.sqrt 5 := by
    rw [show (1 : ℝ) = Real.sqrt 1 by rw [Real.sqrt_one]]
    exact Real.sqrt_lt_sqrt (by norm_num) (by norm_num)
  have h2 : Real.sqrt 5 < 3 := by
    rw [Real.sqrt_lt' (by norm_num)]
    norm_num
  constructor <;> linarith

/-- Certificate: `phiInvPowFloor m k` is the code's
`Math.floor(m * Math.pow(PHI_INV, k))` in exact real arithmetic. -/
theorem phiInvPowFloor_eq_floor (m k : ℕ) :
    (phiInvPowFloor m k : ℤ) = ⌊(m : ℝ) * ((Real.sqrt 5 - 1) / 2) ^ k⌋ := by
  obtain ⟨hr0, hr1⟩ := phiInv_mem_Ioo
  have hpow0 : 0 ≤ ((Real.sqrt 5 - 1) / 2) ^ k := by positivity
  have hpow1 : ((Real.sqrt 5 - 1) / 2) ^ k ≤ 1 := pow_le_one₀ hr0.le hr1.le
  unfold phiInvPowFloor
  refine floorPQ_eq _ _ m _ (phiInvStep_value m k) ?_ ?_
  · positivity
  · have hm : (m : ℝ) * ((Real.sqrt 5 - 1) / 2) ^ k ≤ (m : ℝ) * 1 := by
      refine mul_le_mul_of_nonneg_left hpow1 (by positivity)
    nlinarith

/-! ## The Ratio Estimator (`calculateCompressionRatio`) -/

/-- Closed form of the accumulating fold in `calculateCompressionRatio`. -/
lemma ratioStep_foldl (S : ℕ) (l : List Cluster) (a b : ℚ) :
    l.foldl (ratioStep S) (a, b) =
      (a + (l.map fun sim => (S * (1 + sim.matchList.length) : ℚ) -
          (S + sim.matchList.length * 8)).sum,
        b + (l.map fun sim => (S * (1 + sim.matchList.length) : ℚ)).sum) := by
  induction l generalizing a b with
  | nil => simp
  | cons hd tl ih =>
    rw [List.foldl_cons, ratioStep, ih]
    simp [add_assoc]

/-- Each cluster's `originalSize` term is nonnegative. -/
lemma origTerm_nonneg (S : ℕ) (sim : Cluster) :
    0 ≤ (S * (1 + sim.matchList.length) : ℚ) := by
  positivity

/-- The Ratio Estimator returns exactly `totalSaved / totalOriginal` (in
`ℚ`, where division by the zero total is itself `0`, matching the code's
guarded branch). -/
lemma calculateCompressionRatioQ_eq (l : List Cluster) (S : ℕ) :
    calculateCompressionRatioQ l S =
      (l.map fun sim => (S * (1 + sim.matchList.length) : ℚ) -
          (S + sim.matchList.length * 8)).sum /
        (l.map fun sim => (S * (1 + sim.matchList.length) : ℚ)).sum := by
  unfold calculateCompressionRatioQ
  rw [ratioStep_foldl]
  simp only [zero_add]
  by_cases h : 0 < (l.map fun sim => (S * (1 + sim.matchList.length) : ℚ)).sum
  · rw [if_pos h]
  · rw [if_neg h]
    have h0 : (l.map fun sim => (S * (1 + sim.matchList.length) : ℚ)).sum = 0 := by
      refine le_antisymm (not_lt.mp h) (List.sum_nonneg ?_)
      intro x hx
      obtain ⟨sim, -, rfl⟩ := List.mem_map.mp hx
      exact origTerm_nonneg S sim
    rw [h0, div_zero]

/-- Claim C3, counterexample: on one cluster with one match and segment
size 20 the code's estimator (8 units per reference) returns `3/10`, not
the `1/5` of the spec's 12-units-per-reference formula. -/
theorem claim_C3_counterexample :
    calculateCompressionRatioQ [⟨0, 0, [], [⟨1, 2, Corr.zero⟩]⟩] 20 ≠
      specCompressionRatio12 [⟨0, 0, [], [⟨1, 2, Corr.zero⟩]⟩] 20 := by
  with_unfolding_all decide

/-- Claim C3 (amended): the Ratio Estimator returns
`totalSaved / totalOriginal` with per-cluster `originalSize = S * (1 + matchCount)`
and `compressedSize = S + matchCount * 8` — a fixed cost of 8 units per
reference, not the 12 the claim states — accumulated over all clusters,
and returns 0 when the cluster list is empty. -/
theorem claim_C3_ratio_formula (sims : List Cluster) (S : ℕ) :
    calculateCompressionRatioQ [] S = 0 ∧
      calculateCompressionRatioQ sims S =
        (sims.map fun sim => (S * (1 + sim.matchList.length) : ℚ) -
            (S + sim.matchList.length * 8)).sum /
          (sims.map fun sim => (S * (1 + sim.matchList.length) : ℚ)).sum := by
  refine ⟨by simp [calculateCompressionRatioQ], calculateCompressionRatioQ_eq sims S⟩

/-- Claim C5, counterexample: a single cluster with one match
(`matchCount = 1 ≥ 0`) at segment size `S = 4` (a size the pipeline can
supply) yields the negative estimate `-1/2`. -/
theorem claim_C5_counterexample :
    calculateCompressionRatioQ [⟨0, 0, [], [⟨1, 2, Corr.zero⟩]⟩] 4 < 0 := by
  with_unfolding_all decide

/-- Claim C5 (amended): the estimate can be negative for segment sizes
below the 8-unit reference cost; it is nonnegative for every cluster list
once `S ≥ 8` (each cluster then saves `matchCount * (S - 8) ≥ 0`). -/
theorem claim_C5_nonneg (sims : List Cluster) (S : ℕ) (hS : 8 ≤ S) :
    0 ≤ calculateCompressionRatioQ sims S := by
  rw [calculateCompressionRatioQ_eq]
  have hS' : (8 : ℚ) ≤ (S : ℚ) := by exact_mod_cast hS
  refine div_nonneg (List.sum_nonneg ?_) (List.sum_nonneg ?_)
  · intro x hx
    obtain ⟨sim, -, rfl⟩ := List.mem_map.mp hx
    have hm : (0 : ℚ) ≤ (sim.matchList.length : ℚ) := by positivity
    nlinarith
  · intro x hx
    obtain ⟨sim, -, rfl⟩ := List.mem_map.mp hx
    exact origTerm_nonneg S sim

/-- Witness for `claim_C5_nonneg` at `S = 8` and one concrete cluster. -/
theorem claim_C5_nonneg_witness :
    8 ≤ 8 ∧ 0 ≤ calculateCompressionRatioQ [⟨0, 0, [], [⟨1, 2, Corr.zero⟩]⟩] 8 :=
  ⟨by decide, claim_C5_nonneg [⟨0, 0, [], [⟨1, 2, Corr.zero⟩]⟩] 8 (by decide)⟩

/-! ## Degenerate correlation (`calculateCorrelation`) -/

/-- Claim C8: for equal-length vectors, whenever either vector has zero
variance (`varTerm` zero, i.e. the Pearson denominator is zero),
`calculateCorrelation` returns the correlation value 0 (`Corr.zero`),
not an error. -/
theorem claim_C8_degenerate (arr1 arr2 : List ℚ)
    (hlen : arr1.length = arr2.length)
    (hvar : varTerm arr1 = 0 ∨ varTerm arr2 = 0) :
    calculateCorrelation arr1 arr2 = Corr.zero := by
  unfold calculateCorrelation
  rw [if_neg (by simp [hlen])]
  simp only
  rw [if_pos]
  rcases hvar with h | h <;> simp [h]

/-- Witness for `claim_C8_degenerate`: the constant vector `[5, 5]` has
zero variance. -/
theorem claim_C8_witness :
    ([5, 5] : List ℚ).length = ([1, 2] : List ℚ).length ∧
      varTerm [5, 5] = 0 ∧
      calculateCorrelation [5, 5] [1, 2] = Corr.zero :=
  ⟨rfl, by with_unfolding_all decide,
    claim_C8_degenerate [5, 5] [1, 2] rfl (Or.inl (by with_unfolding_all decide))⟩

/-! ## Encode failure (`encode`) -/

/-- Claim C9: when no scale yields any cluster (the detected pattern list
is empty), `encode` returns the distinct failure result: success flag
`false`, no encoded structure, `compressedSize = originalSize` and
compression ratio 0 — not a throw and not a degenerate success. -/
theorem claim_C9_failure (data : List ℚ)
    (h : detectFractalPatterns data = []) :
    encode data = ⟨false, none, data.length, data.length, 0, 0, 0⟩ := by
  unfold encode
  rw [h]

/-- Witness for `claim_C9_failure`: a five-sample input is below the
minimum segment size at every scale, so no pattern exists. -/
theorem claim_C9_witness :
    detectFractalPatterns [(1 : ℚ), 2, 3, 4, 5] = [] ∧
      encode [(1 : ℚ), 2, 3, 4, 5] = ⟨false, none, 5, 5, 0, 0, 0⟩ :=
  ⟨by with_unfolding_all decide,
    claim_C9_failure [(1 : ℚ), 2, 3, 4, 5] (by with_unfolding_all decide)⟩

/-! ## Segmenter termination (claim C7) -/

/-- With a zero step the segmentation loop never advances: whenever the
loop guard holds it runs out of any amount of fuel. -/
lemma segmentLoop_step_zero (data : List ℚ) (S i : ℕ)
    (h : i + S ≤ data.length) :
    ∀ fuel, segmentLoop data S 0 i fuel = none := by
  intro fuel
  induction fuel with
  | zero => simp [segmentLoop, h]
  | succ f ih => simp [segmentLoop, h, ih]

/-! ## Structure of the encoded artifact (`createEncodedStructure`) -/

/-- The inner reference fold appends exactly one reference per match. -/
lemma refStep_foldl (k : ℕ) (ms : List MatchRec) (st : EncodedStructure) :
    ms.foldl (refStep k) st =
      { st with references :=
          st.references ++ ms.map fun sm => ⟨k, sm.position, sm.correlation⟩ } := by
  induction ms generalizing st with
  | nil => simp
  | cons hd tl ih =>
    rw [List.foldl_cons, ih]
    simp [refStep]

/-- Closed form of the cluster fold in `createEncodedStructure`. -/
lemma encodeClusterStep_foldl (cls : List Cluster) (st : EncodedStructure)
    (used : List ℕ) :
    cls.foldl encodeClusterStep (st, used) =
      ({ st with
          masterSegments := st.masterSegments ++
            cls.map fun cl => ⟨cl.masterPosition, cl.masterData⟩,
          references := st.references ++ refsOf st.masterSegments.length cls },
        used ++ coveredPositions cls) := by
  induction cls generalizing st used with
  | nil => simp [refsOf, coveredPositions]
  | cons cl cls ih =>
    rw [List.foldl_cons]
    have hstep : encodeClusterStep (st, used) cl =
        ({ st with
            masterSegments := st.masterSegments ++ [⟨cl.masterPosition, cl.masterData⟩],
            references := st.references ++
              cl.matchList.map fun sm =>
                ⟨st.masterSegments.length, sm.position, sm.correlation⟩ },
          (used ++ [cl.masterPosition]) ++ cl.matchList.map MatchRec.position) := by
      show (_, _) = _
      rw [refStep_foldl]
      simp
    rw [hstep, ih]
    simp [refsOf, coveredPositions, List.append_assoc]

/-- Closed form of the whole encoded structure: masters in cluster order,
references grouped per cluster with `masterIndex` equal to the cluster's
rank, and one residual per uncovered offset carrying the raw value. -/
lemma createEncodedStructure_eq (data : List ℚ) (pattern : ScaleResult) :
    createEncodedStructure data pattern =
      ⟨pattern.scale, pattern.segmentSize, data.length,
        pattern.patterns.map fun cl => ⟨cl.masterPosition, cl.masterData⟩,
        refsOf 0 pattern.patterns,
        (List.range data.length).filterMap fun i =>
          if i ∈ coveredPositions pattern.patterns then none
          else some ⟨i, data.getD i 0⟩⟩ := by
  unfold createEncodedStructure
  simp only [encodeClusterStep_foldl]
  rfl

/-- Every reference `refsOf` emits points into the window
`[base, base + number of clusters)`. -/
lemma refsOf_masterIndex_lt (cls : List Cluster) :
    ∀ (base : ℕ), ∀ ref ∈ refsOf base cls,
      base ≤ ref.masterIndex ∧ ref.masterIndex < base + cls.length := by
  induction cls with
  | nil => simp [refsOf]
  | cons cl cls ih =>
    intro base ref href
    rw [refsOf, List.mem_append] at href
    rcases href with h | h
    · obtain ⟨sm, -, rfl⟩ := List.mem_map.mp h
      simp
    · have := ih (base + 1) ref h
      simp only [List.length_cons]
      omega

/-- Every reference `refsOf` emits comes from a match of the cluster its
`masterIndex` ranks, relative to `base`. -/
lemma refsOf_mem (cls : List Cluster) :
    ∀ (base : ℕ), ∀ ref ∈ refsOf base cls,
      ∃ (k : ℕ) (hk : k < cls.length), ∃ sm ∈ (cls.get ⟨k, hk⟩).matchList,
        ref = ⟨base + k, sm.position, sm.correlation⟩ := by
  induction cls with
  | nil => simp [refsOf]
  | cons cl cls ih =>
    intro base ref href
    rw [refsOf, List.mem_append] at href
    rcases href with h | h
    · obtain ⟨sm, hsm, rfl⟩ := List.mem_map.mp h
      exact ⟨0, by simp, sm, hsm, by simp⟩
    · obtain ⟨k, hk, sm, hsm, rfl⟩ := ih (base + 1) ref h
      exact ⟨k + 1, by simpa using hk, sm, hsm, by simp; omega⟩

/-- Success inversion for `encode`: an encoded structure comes from the
best-ranked pattern. -/
lemma encode_encoded_eq (data : List ℚ) (st : EncodedStructure)
    (h : (encode data).encoded = some st) :
    ∃ best rest, detectFractalPatterns data = best :: rest ∧
      st = createEncodedStructure data best := by
  unfold encode at h
  cases hd : detectFractalPatterns data with
  | nil => rw [hd] at h; simp at h
  | cons best rest =>
    rw [hd] at h
    simp only [Option.some.injEq] at h
    exact ⟨best, rest, rfl, h.symm⟩

/-- Claim C10: in every structure a successful `encode` produces, each
reference record's `masterIndex` is a valid index into the master-segment
list, so decode's lookup of the referenced master always succeeds. -/
theorem claim_C10_masterIndex (data : List ℚ) (st : EncodedStructure)
    (h : (encode data).encoded = some st) :
    ∀ ref ∈ st.references, ref.masterIndex < st.masterSegments.length := by
  obtain ⟨best, rest, -, rfl⟩ := encode_encoded_eq data st h
  rw [createEncodedStructure_eq]
  intro ref href
  have := refsOf_masterIndex_lt best.patterns 0 ref href
  simpa using this.2

/-- Witness for `claim_C10_masterIndex` on the concrete successful encode
of `exData7`: its single reference points at master index 0 of 1. -/
theorem claim_C10_witness :
    (encode exData7).encoded = some exSt7 ∧
      (⟨0, 2, ⟨5, 25⟩⟩ : Reference).masterIndex < exSt7.masterSegments.length :=
  ⟨by with_unfolding_all decide,
    claim_C10_masterIndex exData7 exSt7 (by with_unfolding_all decide)
      ⟨0, 2, ⟨5, 25⟩⟩ (by with_unfolding_all decide)⟩

/-! ## The decoder as a sequence of write events -/

/-- A one-value write is a `set`. -/
lemma writeSeg_singleton (recon : List (Option ℚ)) (p : ℕ) (v : ℚ) :
    writeSeg recon p [v] = recon.set p (some v) := rfl

/-- `writeSeg` never changes the buffer length. -/
lemma writeSeg_length (vs : List ℚ) :
    ∀ (recon : List (Option ℚ)) (p : ℕ),
      (writeSeg recon p vs).length = recon.length := by
  induction vs with
  | nil => intro recon p; rfl
  | cons v vs ih =>
    intro recon p
    rw [writeSeg, ih]
    exact recon.length_set p (some v)

/-- Effect of one `writeSeg` on one slot: the slot receives the event's
value when the event covers it, and is untouched otherwise. -/
lemma writeSeg_getElem? (vs : List ℚ) :
    ∀ (recon : List (Option ℚ)) (p o : ℕ), o < recon.length →
      (writeSeg recon p vs)[o]? =
        match eventValueAt (p, vs) o with
        | some v => some (some v)
        | none => recon[o]? := by
  induction vs with
  | nil =>
    intro recon p o _
    simp [writeSeg, eventValueAt]
  | cons v vs ih =>
    intro recon p o ho
    rw [writeSeg, ih _ (p + 1) o (by rw [recon.length_set]; exact ho)]
    by_cases hop : o = p
    · subst hop
      have h1 : eventValueAt (o + 1, vs) o = none := by
        simp [eventValueAt]
      have h2 : eventValueAt (o, v :: vs) o = some v := by
        simp [eventValueAt]
      rw [h1, h2, List.getElem?_set_self ho]
    · have h3 : (recon.set p (some v))[o]? = recon[o]? :=
        List.getElem?_set_ne (fun hpo => hop hpo.symm)
      rw [h3]
      by_cases hle : p + 1 ≤ o
      · have h4 : eventValueAt (p + 1, vs) o = eventValueAt (p, v :: vs) o := by
          have hd : o - p = (o - (p + 1)) + 1 := by omega
          simp only [eventValueAt, if_pos hle, if_pos (by omega : p ≤ o), hd,
            List.get?_cons_succ]
        rw [h4]
      · have h5 : eventValueAt (p + 1, vs) o = none := by
          simp [eventValueAt, hle]
        have h6 : eventValueAt (p, v :: vs) o = none := by
          have : ¬ p ≤ o := by omega
          simp [eventValueAt, this]
        rw [h5, h6]

/-- Unfolding `lastWriteAt` from an arbitrary accumulator. -/
lemma lastWriteAt_foldl (o : ℕ) (es : List (ℕ × List ℚ)) :
    ∀ acc : Option ℚ,
      es.foldl
          (fun acc e =>
            match eventValueAt e o with
            | some v => some v
            | none => acc) acc =
        match lastWriteAt es o with
        | some v => some v
        | none => acc := by
  induction es with
  | nil => intro acc; simp [lastWriteAt]
  | cons e es ih =>
    intro acc
    rw [List.foldl_cons, ih]
    have h1 : lastWriteAt (e :: es) o =
        es.foldl
          (fun acc e =>
            match eventValueAt e o with
            | some v => some v
            | none => acc)
          (match eventValueAt e o with
            | some v => some v
            | none => none) := rfl
    rw [h1, ih]
    cases lastWriteAt es o <;> cases eventValueAt e o <;> simp

/-- Unfolding `lastWriteAt` over a cons cell: later events win. -/
lemma lastWriteAt_cons (e : ℕ × List ℚ) (es : List (ℕ × List ℚ)) (o : ℕ) :
    lastWriteAt (e :: es) o =
      match lastWriteAt es o with
      | some v => some v
      | none => eventValueAt e o := by
  have h1 : lastWriteAt (e :: es) o =
      es.foldl
        (fun acc e =>
          match eventValueAt e o with
          | some v => some v
          | none => acc)
        (match eventValueAt e o with
          | some v => some v
          | none => none) := rfl
  rw [h1, lastWriteAt_foldl]
  cases lastWriteAt es o <;> cases eventValueAt e o <;> simp

/-- `lastWriteAt` over a concatenation: the later block wins. -/
lemma lastWriteAt_append (es1 es2 : List (ℕ × List ℚ)) (o : ℕ) :
    lastWriteAt (es1 ++ es2) o =
      match lastWriteAt es2 o with
      | some v => some v
      | none => lastWriteAt es1 o := by
  induction es1 with
  | nil =>
    cases h : lastWriteAt es2 o <;> simp [lastWriteAt] at h ⊢ <;> rw [h]
  | cons e es1 ih =>
    rw [List.cons_append, lastWriteAt_cons, ih, lastWriteAt_cons]
    cases lastWriteAt es2 o <;> cases lastWriteAt es1 o <;>
      cases eventValueAt e o <;> simp

/-- If no event of the list covers `o`, `lastWriteAt` is `none`. -/
lemma lastWriteAt_eq_none (es : List (ℕ × List ℚ)) (o : ℕ)
    (h : ∀ e ∈ es, eventValueAt e o = none) : lastWriteAt es o = none := by
  induction es with
  | nil => rfl
  | cons e es ih =>
    rw [lastWriteAt_cons, ih fun x hx => h x (List.mem_cons_of_mem e hx),
      h e (List.mem_cons_self e es)]

/-- Replaying events slot by slot is last-writer-wins. -/
lemma applyEvents_getElem? (events : List (ℕ × List ℚ)) :
    ∀ (recon : List (Option ℚ)) (o : ℕ), o < recon.length →
      (applyEvents recon events)[o]? =
        match lastWriteAt events o with
        | some v => some (some v)
        | none => recon[o]? := by
  induction events with
  | nil => intro recon o _; simp [applyEvents, lastWriteAt]
  | cons e es ih =>
    intro recon o ho
    have hstep : applyEvents recon (e :: es) =
        applyEvents (writeSeg recon e.1 e.2) es := rfl
    have hlen : o < (writeSeg recon e.1 e.2).length := by
      rw [writeSeg_length]; exact ho
    rw [hstep, ih _ o hlen]
    rw [lastWriteAt_cons, writeSeg_getElem? e.2 recon e.1 o ho]
    cases lastWriteAt es o <;> cases eventValueAt e o <;> simp

/-- The residual phase of `decodeStructure` replays the residual events. -/
lemma applyEvents_residuals (rs : List Residual) :
    ∀ recon : List (Option ℚ),
      applyEvents recon (rs.map fun res => (res.position, [res.value])) =
        rs.foldl (fun rc res => rc.set res.position (some res.value)) recon := by
  induction rs with
  | nil => intro recon; rfl
  | cons r rs ih =>
    intro recon
    have h1 : applyEvents recon
        ((r.position, [r.value]) :: rs.map fun res => (res.position, [res.value])) =
        applyEvents (recon.set r.position (some r.value))
          (rs.map fun res => (res.position, [res.value])) := rfl
    rw [List.map_cons, h1, ih, List.foldl_cons]

/-- Replaying one master block: the master's write followed by the writes
of the references pointing at it. -/
lemma applyEvents_master_block (r : List (Option ℚ)) (pos : ℕ) (vals : List ℚ)
    (refs : List Reference) :
    applyEvents r ((pos, vals) :: refs.map fun ref => (ref.position, vals)) =
      refs.foldl (fun rc ref => writeSeg rc ref.position vals)
        (writeSeg r pos vals) := by
  simp [applyEvents, List.foldl_map]

/-- Events of a concatenation of blocks replay block by block. -/
lemma applyEvents_flatMap {α : Type} (l : List α) (g : α → List (ℕ × List ℚ)) :
    ∀ recon : List (Option ℚ),
      applyEvents recon (l.flatMap g) =
        l.foldl (fun r x => applyEvents r (g x)) recon := by
  induction l with
  | nil => intro recon; rfl
  | cons x l ih =>
    intro recon
    rw [List.flatMap_cons, List.foldl_cons]
    show applyEvents recon (g x ++ l.flatMap g) = _
    unfold applyEvents
    rw [List.foldl_append]
    exact ih _

/-- `decodeStructure` is exactly the replay of its write events, in the
code's order, over an all-unset buffer. -/
lemma decodeStructure_eq_applyEvents (st : EncodedStructure) :
    decodeStructure st =
      applyEvents (List.replicate st.originalLength none) (segEvents st) := by
  unfold decodeStructure segEvents
  have hsplit :
      applyEvents (List.replicate st.originalLength none)
        ((st.masterSegments.enum.flatMap fun mi =>
            (mi.2.position, mi.2.data) ::
              ((st.references.filter fun ref => ref.masterIndex == mi.1).map
                fun ref => (ref.position, mi.2.data))) ++
          st.residual.map fun res => (res.position, [res.value])) =
      applyEvents
        (applyEvents (List.replicate st.originalLength none)
          (st.masterSegments.enum.flatMap fun mi =>
            (mi.2.position, mi.2.data) ::
              ((st.references.filter fun ref => ref.masterIndex == mi.1).map
                fun ref => (ref.position, mi.2.data))))
        (st.residual.map fun res => (res.position, [res.value])) := by
    unfold applyEvents
    rw [List.foldl_append]
  rw [hsplit, applyEvents_flatMap, applyEvents_residuals]
  have hblock : ∀ (r : List (Option ℚ)) (mi : ℕ × MasterSeg),
      applyEvents r
          ((mi.2.position, mi.2.data) ::
            ((st.references.filter fun ref => ref.masterIndex == mi.1).map
              fun ref => (ref.position, mi.2.data))) =
        (st.references.filter fun ref => ref.masterIndex == mi.1).foldl
          (fun rc ref => writeSeg rc ref.position mi.2.data)
          (writeSeg r mi.2.position mi.2.data) :=
    fun r mi => applyEvents_master_block r mi.2.position mi.2.data _
  simp only [hblock]

/-- The decoded value at any in-range offset is the last write the code
performs there. -/
lemma decodeStructure_getD (st : EncodedStructure) (o : ℕ)
    (ho : o < st.originalLength) :
    (decodeStructure st).getD o none = lastWriteAt (segEvents st) o := by
  rw [decodeStructure_eq_applyEvents, List.getD_eq_getElem?_getD,
    applyEvents_getElem? (segEvents st) _ o (by simpa using ho)]
  cases lastWriteAt (segEvents st) o <;>
    simp [List.getElem?_replicate, ho]

/-- Claim C4 (amended): decode does not run three separated phases; it
writes each master's values followed immediately by the copies for the
references pointing at that master (masters in list order), and then every
residual value; on any offset written more than once the later write in
this interleaved global order determines the decoded value. -/
theorem claim_C4_decode_order (st : EncodedStructure) (o : ℕ)
    (ho : o < st.originalLength) :
    (decodeStructure st).getD o none = lastWriteAt (segEvents st) o :=
  decodeStructure_getD st o ho

/-- Witness for `claim_C4_decode_order` at offset 2 of the concrete
structure `exSt11`. -/
theorem claim_C4_witness :
    2 < exSt11.originalLength ∧
      (decodeStructure exSt11).getD 2 none = lastWriteAt (segEvents exSt11) 2 :=
  ⟨by with_unfolding_all decide, claim_C4_decode_order exSt11 2 (by with_unfolding_all decide)⟩

/-- Claim C4, counterexample: on the encode-produced structure `exSt11`
the decoder's actual output at offset 2 (the second master's first value,
`2`) differs from what the claimed three-phase order would produce there
(the reference copy `0` would win): the claimed strict phase separation
does not describe the code. -/
theorem claim_C4_counterexample :
    (encode exData11).success = true ∧
      (encode exData11).encoded = some exSt11 ∧
      (decodeStructure exSt11).getD 2 none ≠
        lastWriteAt (threePhaseEvents exSt11) 2 :=
  ⟨by with_unfolding_all decide, by with_unfolding_all decide,
    by with_unfolding_all decide⟩

/-! ## Residual exactness (claim C2) -/

/-- A one-value event writes exactly at its own offset. -/
lemma eventValueAt_single (p : ℕ) (v : ℚ) (o : ℕ) :
    eventValueAt (p, [v]) o = if p = o then some v else none := by
  by_cases h : p = o
  · subst h
    simp [eventValueAt]
  · by_cases hle : p ≤ o
    · obtain ⟨k, hk⟩ : ∃ k, o - p = k + 1 := ⟨o - p - 1, by omega⟩
      simp [eventValueAt, hle, hk, h]
    · simp [eventValueAt, hle, h]

/-- Among one-value events with pairwise distinct offsets, the record at
an offset determines the last (indeed only) write there. -/
lemma lastWriteAt_residual_events (rs : List Residual) (r : Residual)
    (hmem : r ∈ rs)
    (hdist : rs.Pairwise fun a b => a.position ≠ b.position) :
    lastWriteAt (rs.map fun res => (res.position, [res.value])) r.position =
      some r.value := by
  induction rs with
  | nil => cases hmem
  | cons a rs ih =>
    rw [List.map_cons, lastWriteAt_cons]
    rw [List.pairwise_cons] at hdist
    rcases List.mem_cons.mp hmem with rfl | hmem
    · have hnone :
          lastWriteAt (rs.map fun res => (res.position, [res.value])) r.position =
            none := by
        refine lastWriteAt_eq_none _ _ ?_
        intro e he
        obtain ⟨res, hres, rfl⟩ := List.mem_map.mp he
        rw [eventValueAt_single, if_neg]
        exact fun hpe => hdist.1 res hres hpe.symm
      rw [hnone, eventValueAt_single, if_pos rfl]
    · rw [ih hmem hdist.2]

/-- Every residual record of an encoded structure carries an in-range
offset and the raw input value at that offset. -/
lemma residual_facts (data : List ℚ) (pattern : ScaleResult) :
    ∀ res ∈ (createEncodedStructure data pattern).residual,
      res.position < data.length ∧ res.value = data.getD res.position 0 := by
  rw [createEncodedStructure_eq]
  intro res hres
  obtain ⟨i, hi, hsome⟩ := List.mem_filterMap.mp hres
  by_cases hc : i ∈ coveredPositions pattern.patterns
  · rw [if_pos hc] at hsome
    cases hsome
  · rw [if_neg hc] at hsome
    cases hsome
    exact ⟨List.mem_range.mp hi, rfl⟩

/-- The residual records of an encoded structure have pairwise distinct
offsets (they are built by one upward scan over all offsets). -/
lemma residual_pairwise (data : List ℚ) (pattern : ScaleResult) :
    (createEncodedStructure data pattern).residual.Pairwise
      fun a b => a.position ≠ b.position := by
  rw [createEncodedStructure_eq]
  refine List.pairwise_filterMap.mpr ?_
  refine List.Pairwise.imp ?_ (List.pairwise_lt_range _)
  intro i j hij x hx y hy
  by_cases hci : i ∈ coveredPositions pattern.patterns
  · simp [hci] at hx
  · by_cases hcj : j ∈ coveredPositions pattern.patterns
    · simp [hcj] at hy
    · simp only [if_neg hci, Option.mem_def, Option.some.injEq] at hx
      simp only [if_neg hcj, Option.mem_def, Option.some.injEq] at hy
      rw [← hx, ← hy]
      simpa using Nat.ne_of_lt hij

/-- Claim C2: for every input on which encode succeeds and every offset
recorded in the residual list of the produced structure, decoding yields
exactly the input value at that offset — residuals are raw copies, written
last. -/
theorem claim_C2_residual_exact (data : List ℚ) (st : EncodedStructure)
    (h : (encode data).encoded = some st) :
    ∀ res ∈ st.residual,
      (decodeStructure st).getD res.position none =
        some (data.getD res.position 0) := by
  intro res hres
  obtain ⟨best, rest, hdet, hst⟩ := encode_encoded_eq data st h
  subst hst
  have hfacts := residual_facts data best res hres
  have hL : (createEncodedStructure data best).originalLength = data.length := by
    rw [createEncodedStructure_eq]
  rw [decodeStructure_getD _ res.position (by rw [hL]; exact hfacts.1)]
  have hsplit : segEvents (createEncodedStructure data best) =
      ((createEncodedStructure data best).masterSegments.enum.flatMap fun mi =>
        (mi.2.position, mi.2.data) ::
          (((createEncodedStructure data best).references.filter
              fun ref => ref.masterIndex == mi.1).map
            fun ref => (ref.position, mi.2.data))) ++
        (createEncodedStructure data best).residual.map
          fun res => (res.position, [res.value]) := rfl
  rw [hsplit, lastWriteAt_append,
    lastWriteAt_residual_events _ res hres (residual_pairwise data best),
    hfacts.2]

/-- Witness for `claim_C2_residual_exact`: offset 3 is residual in the
encode of `exData7` and decodes to the raw input value 3. -/
theorem claim_C2_witness :
    (encode exData7).encoded = some exSt7 ∧
      (decodeStructure exSt7).getD 3 none = some (exData7.getD 3 0) :=
  ⟨by with_unfolding_all decide,
    claim_C2_residual_exact exData7 exSt7 (by with_unfolding_all decide)
      ⟨3, 3⟩ (by with_unfolding_all decide)⟩

/-! ## Facts about the Segmenter's output -/

/-- With a positive step, the fuel `data.length + 1` always completes the
segmentation loop. -/
lemma segmentLoop_some (data : List ℚ) (S step : ℕ) (hstep : 1 ≤ step) :
    ∀ (fuel i : ℕ), data.length + 1 - i ≤ fuel →
      ∃ segs, segmentLoop data S step i fuel = some segs := by
  intro fuel
  induction fuel with
  | zero =>
    intro i h
    have hc : ¬ i + S ≤ data.length := by omega
    exact ⟨[], by simp [segmentLoop, hc]⟩
  | succ f ih =>
    intro i h
    by_cases hc : i + S ≤ data.length
    · obtain ⟨segs, hs⟩ := ih (i + step) (by omega)
      exact ⟨⟨(data.drop i).take S, i⟩ :: segs,
        by rw [segmentLoop, if_pos hc, hs]; rfl⟩
    · exact ⟨[], by simp [segmentLoop, hc]⟩

/-- Every segment the loop emits starts at or after the current index,
fits inside the input, and copies `data.slice(pos, pos + S)`. -/
lemma segmentLoop_mem (data : List ℚ) (S step : ℕ) :
    ∀ (fuel i : ℕ) (segs : List Segment),
      segmentLoop data S step i fuel = some segs →
      ∀ s ∈ segs, i ≤ s.position ∧ s.position + S ≤ data.length ∧
        s.data = (data.drop s.position).take S := by
  intro fuel
  induction fuel with
  | zero =>
    intro i segs h s hs
    by_cases hc : i + S ≤ data.length
    · simp [segmentLoop, hc] at h
    · simp [segmentLoop, hc] at h
      subst h
      cases hs
  | succ f ih =>
    intro i segs h s hs
    by_cases hc : i + S ≤ data.length
    · rw [segmentLoop, if_pos hc, Option.map_eq_some'] at h
      obtain ⟨rest, hrest, hsegs⟩ := h
      subst hsegs
      rcases List.mem_cons.mp hs with rfl | hs
      · exact ⟨Nat.le_refl _, hc, rfl⟩
      · have := ih (i + step) rest hrest s hs
        exact ⟨by omega, this.2⟩
    · simp [segmentLoop, hc] at h
      subst h
      cases hs

/-- With a positive step the emitted segments have strictly increasing
offsets. -/
lemma segmentLoop_pairwise (data : List ℚ) (S step : ℕ) (hstep : 1 ≤ step) :
    ∀ (fuel i : ℕ) (segs : List Segment),
      segmentLoop data S step i fuel = some segs →
      segs.Pairwise fun a b => a.position < b.position := by
  intro fuel
  induction fuel with
  | zero =>
    intro i segs h
    by_cases hc : i + S ≤ data.length
    · simp [segmentLoop, hc] at h
    · simp [segmentLoop, hc] at h
      subst h
      exact List.Pairwise.nil
  | succ f ih =>
    intro i segs h
    by_cases hc : i + S ≤ data.length
    · rw [segmentLoop, if_pos hc, Option.map_eq_some'] at h
      obtain ⟨rest, hrest, hsegs⟩ := h
      subst hsegs
      refine List.Pairwise.cons ?_ (ih (i + step) rest hrest)
      intro b hb
      have := segmentLoop_mem data S step f (i + step) rest hrest b hb
      show i < b.position
      omega
    · simp [segmentLoop, hc] at h
      subst h
      exact List.Pairwise.nil

/-- Segment offsets produced by `segmentData` are strictly increasing —
also in the degenerate zero-step case, where the loop either never runs
(empty output) or never finishes (and the embedding's default is the empty
list). -/
lemma segmentData_pairwise (data : List ℚ) (S : ℕ) :
    (segmentData data S).Pairwise fun a b => a.position < b.position := by
  by_cases hstep : 1 ≤ phiInvPowFloor S 1
  · obtain ⟨segs, hs⟩ :=
      segmentLoop_some data S _ hstep (data.length + 1) 0 (by omega)
    unfold segmentData
    rw [hs]
    exact segmentLoop_pairwise data S _ hstep _ 0 segs hs
  · have h0 : phiInvPowFloor S 1 = 0 := by omega
    unfold segmentData
    rw [h0]
    by_cases hc : 0 + S ≤ data.length
    · rw [segmentLoop_step_zero data S 0 hc (data.length + 1)]
      exact List.Pairwise.nil
    · have h1 : segmentLoop data S 0 0 (data.length + 1) = some [] := by
        rw [segmentLoop, if_neg (by omega)]
      rw [h1]
      exact List.Pairwise.nil

/-- In-range and slicing facts for `segmentData` output. -/
lemma segmentData_mem (data : List ℚ) (S : ℕ) :
    ∀ s ∈ segmentData data S,
      s.position + S ≤ data.length ∧ s.data = (data.drop s.position).take S := by
  unfold segmentData
  cases hl : segmentLoop data S (phiInvPowFloor S 1) 0 (data.length + 1) with
  | none => simp
  | some segs =>
    simp only [Option.getD_some]
    intro s hs
    exact (segmentLoop_mem data S _ _ 0 segs hl s hs).2

/-- Every segment `segmentData` produces carries exactly `S` values. -/
lemma segmentData_data_length (data : List ℚ) (S : ℕ) :
    ∀ s ∈ segmentData data S, s.data.length = S := by
  intro s hs
  obtain ⟨hfit, hdata⟩ := segmentData_mem data S s hs
  rw [hdata, List.length_take, List.length_drop]
  omega

/-! ## Inversion facts for the Similarity Matcher and Pattern Selector -/

/-- Membership in a dropped prefix of `range`. -/
lemma mem_drop_range (n k j : ℕ) (h : j ∈ (List.range n).drop k) :
    k ≤ j ∧ j < n := by
  obtain ⟨i, hi, he⟩ := List.mem_iff_getElem.mp h
  rw [List.getElem_drop] at he
  have hki : k + i < n := by
    have := hi
    simp only [List.length_drop, List.length_range] at this
    omega
  rw [List.getElem_range] at he
  omega

/-- What it means to be a cluster of `findSimilarSegments`: the master is
the segment at `masterIndex`, and every match points at a strictly later
segment whose correlation with the master passed the `> 0.99` test. -/
lemma mem_findSimilarSegments (segments : List Segment) (cl : Cluster)
    (h : cl ∈ findSimilarSegments segments) :
    cl.masterIndex < segments.length ∧
      cl.masterPosition = (segments.getD cl.masterIndex ⟨[], 0⟩).position ∧
      cl.masterData = (segments.getD cl.masterIndex ⟨[], 0⟩).data ∧
      ∀ sm ∈ cl.matchList,
        cl.masterIndex < sm.index ∧ sm.index < segments.length ∧
          sm.position = (segments.getD sm.index ⟨[], 0⟩).position ∧
          sm.correlation = calculateCorrelation
            (segments.getD cl.masterIndex ⟨[], 0⟩).data
            (segments.getD sm.index ⟨[], 0⟩).data ∧
          corrGtB sm.correlation (1 - 1 / 100) = true := by
  unfold findSimilarSegments at h
  obtain ⟨i, hi, hsome⟩ := List.mem_filterMap.mp h
  simp only at hsome
  split at hsome
  case isTrue hms =>
    cases hsome
    refine ⟨List.mem_range.mp hi, rfl, rfl, ?_⟩
    intro sm hsm
    obtain ⟨j, hj, hjsome⟩ := List.mem_filterMap.mp hsm
    have hjrange := mem_drop_range segments.length (i + 1) j hj
    split at hjsome
    case isTrue hcorr =>
      cases hjsome
      refine ⟨?_, ?_, rfl, rfl, hcorr⟩
      · show i < j
        omega
      · show j < segments.length
        omega
    case isFalse hcorr => cases hjsome
  case isFalse hms => cases hsome

/-- What it means to be a ranked pattern of `detectFractalPatterns`: a
segment size of at least 4 whose similarity search found clusters. -/
lemma mem_detectFractalPatterns (data : List ℚ) (x : ScaleResult)
    (h : x ∈ detectFractalPatterns data) :
    4 ≤ x.segmentSize ∧
      x.patterns = findSimilarSegments (segmentData data x.segmentSize) ∧
      x.patterns ≠ [] := by
  unfold detectFractalPatterns at h
  rw [List.mem_mergeSort] at h
  obtain ⟨scale, hscale, hsome⟩ := List.mem_filterMap.mp h
  simp only at hsome
  split at hsome
  case isTrue hlen =>
    cases hsome
    have hp := List.mem_takeWhile_imp hscale
    refine ⟨by simpa using hp, rfl, ?_⟩
    intro hnil
    exact absurd hnil (List.length_pos.mp hlen)
  case isFalse hlen => cases hsome

/-- Offsets in the used-position set are master offsets or match offsets. -/
lemma mem_coveredPositions (cls : List Cluster) (o : ℕ) :
    o ∈ coveredPositions cls ↔
      ∃ cl ∈ cls, o = cl.masterPosition ∨
        ∃ sm ∈ cl.matchList, o = sm.position := by
  unfold coveredPositions
  simp only [List.mem_flatMap, List.mem_cons, List.mem_map]
  constructor
  · rintro ⟨cl, hcl, h | ⟨sm, hsm, hpos⟩⟩
    · exact ⟨cl, hcl, Or.inl h⟩
    · exact ⟨cl, hcl, Or.inr ⟨sm, hsm, hpos.symm⟩⟩
  · rintro ⟨cl, hcl, h | ⟨sm, hsm, hpos⟩⟩
    · exact ⟨cl, hcl, Or.inl h⟩
    · exact ⟨cl, hcl, Or.inr ⟨sm, hsm, hpos.symm⟩⟩

/-- Forward construction: the match `sm` of the cluster ranked `k` yields
the reference record `⟨base + k, sm.position, sm.correlation⟩`. -/
lemma refsOf_mem_of (cls : List Cluster) :
    ∀ (base k : ℕ) (hk : k < cls.length),
      ∀ sm ∈ (cls.get ⟨k, hk⟩).matchList,
        (⟨base + k, sm.position, sm.correlation⟩ : Reference) ∈ refsOf base cls := by
  induction cls with
  | nil => intro base k hk; cases hk
  | cons cl cls ih =>
    intro base k hk sm hsm
    cases k with
    | zero =>
      rw [refsOf]
      refine List.mem_append_left _ ?_
      simp only [Nat.add_zero]
      exact List.mem_map_of_mem _ hsm
    | succ k =>
      rw [refsOf]
      refine List.mem_append_right _ ?_
      have := ih (base + 1) k (by simpa using hk) sm hsm
      have harith : base + (k + 1) = (base + 1) + k := by omega
      rw [harith]
      exact this

/-! ## Cauchy–Schwarz for the Pearson coefficient

The correlation bound of claim C6 reduces to the discrete Cauchy–Schwarz
inequality applied to the centered sample vectors; everything is carried
out over `ℚ` on the scaled centering `n·xᵢ - Σx`, which avoids divisions
until the final step. -/

/-- A list sum as a sum over its index type. -/
lemma list_sum_get (l : List ℚ) : l.sum = ∑ i : Fin l.length, l.get i := by
  induction l with
  | nil => simp
  | cons x l ih =>
    rw [List.sum_cons, ih]
    have h1 : ∑ i : Fin (x :: l).length, (x :: l).get i =
        ∑ i : Fin (l.length + 1), (x :: l).get i := rfl
    rw [h1, Fin.sum_univ_succ]
    rfl

/-- A mapped list sum as a sum over its index type. -/
lemma list_map_sum_get (f : ℚ → ℚ) (l : List ℚ) :
    (l.map f).sum = ∑ i : Fin l.length, f (l.get i) := by
  induction l with
  | nil => simp
  | cons x l ih =>
    rw [List.map_cons, List.sum_cons, ih]
    have h1 : ∑ i : Fin (x :: l).length, f ((x :: l).get i) =
        ∑ i : Fin (l.length + 1), f ((x :: l).get i) := rfl
    rw [h1, Fin.sum_univ_succ]
    rfl

/-- The pointwise-product sum of two equal-length lists as an indexed sum. -/
lemma list_zipWith_mul_sum (a : List ℚ) :
    ∀ (b : List ℚ) (h : a.length = b.length),
      (List.zipWith (fun u v => u * v) a b).sum =
        ∑ i : Fin a.length, a.get i * b.get (Fin.cast h i) := by
  induction a with
  | nil => intro b h; simp
  | cons x a ih =>
    intro b h
    cases b with
    | nil => cases h
    | cons y b =>
      rw [List.zipWith_cons_cons, List.sum_cons, ih b (by simpa using h)]
      have h1 : ∑ i : Fin (x :: a).length,
            (x :: a).get i * (y :: b).get (Fin.cast h i) =
          ∑ i : Fin (a.length + 1),
            (x :: a).get i * (y :: b).get (Fin.cast h i) := rfl
      rw [h1, Fin.sum_univ_succ]
      rfl

/-- Cauchy–Schwarz in the form the Pearson terms take:
`(Σxy - ΣxΣy/n)² ≤ (Σx² - (Σx)²/n) · (Σy² - (Σy)²/n)`. -/
lemma pearson_cs (n : ℕ) (x y : Fin n → ℚ) :
    ((∑ i, x i * y i) - (∑ i, x i) * (∑ i, y i) / (n : ℚ)) ^ 2 ≤
      ((∑ i, x i * x i) - (∑ i, x i) * (∑ i, x i) / (n : ℚ)) *
        ((∑ i, y i * y i) - (∑ i, y i) * (∑ i, y i) / (n : ℚ)) := by
  rcases Nat.eq_zero_or_pos n with rfl | hn
  · simp
  have hn' : ((n : ℚ)) ≠ 0 := Nat.cast_ne_zero.mpr (Nat.pos_iff_ne_zero.mp hn)
  have key := Finset.sum_mul_sq_le_sq_mul_sq Finset.univ
    (fun i => (n : ℚ) * x i - ∑ j, x j) (fun i => (n : ℚ) * y i - ∑ j, y j)
  have hFG : ∑ i, ((n : ℚ) * x i - ∑ j, x j) * ((n : ℚ) * y i - ∑ j, y j) =
      (n : ℚ) ^ 2 * ((∑ i, x i * y i) - (∑ i, x i) * (∑ i, y i) / (n : ℚ)) := by
    have hterm : ∀ i : Fin n,
        ((n : ℚ) * x i - ∑ j, x j) * ((n : ℚ) * y i - ∑ j, y j) =
          (n : ℚ) ^ 2 * (x i * y i) - ((n : ℚ) * ∑ j, y j) * x i -
            ((n : ℚ) * ∑ j, x j) * y i + (∑ j, x j) * ∑ j, y j := by
      intro i; ring
    rw [Finset.sum_congr rfl fun i _ => hterm i, Finset.sum_add_distrib,
      Finset.sum_sub_distrib, Finset.sum_sub_distrib, ← Finset.mul_sum,
      ← Finset.mul_sum, ← Finset.mul_sum, Finset.sum_const, Finset.card_univ,
      Fintype.card_fin, nsmul_eq_mul]
    field_simp
    ring
  have hFF : ∑ i, ((n : ℚ) * x i - ∑ j, x j) ^ 2 =
      (n : ℚ) ^ 2 * ((∑ i, x i * x i) - (∑ i, x i) * (∑ i, x i) / (n : ℚ)) := by
    have hterm : ∀ i : Fin n, ((n : ℚ) * x i - ∑ j, x j) ^ 2 =
        (n : ℚ) ^ 2 * (x i * x i) - ((n : ℚ) * ∑ j, x j) * x i -
          ((n : ℚ) * ∑ j, x j) * x i + (∑ j, x j) * ∑ j, x j := by
      intro i; ring
    rw [Finset.sum_congr rfl fun i _ => hterm i, Finset.sum_add_distrib,
      Finset.sum_sub_distrib, Finset.sum_sub_distrib, ← Finset.mul_sum,
      ← Finset.mul_sum, ← Finset.mul_sum, Finset.sum_const, Finset.card_univ,
      Fintype.card_fin, nsmul_eq_mul]
    field_simp
    ring
  have hGG : ∑ i, ((n : ℚ) * y i - ∑ j, y j) ^ 2 =
      (n : ℚ) ^ 2 * ((∑ i, y i * y i) - (∑ i, y i) * (∑ i, y i) / (n : ℚ)) := by
    have hterm : ∀ i : Fin n, ((n : ℚ) * y i - ∑ j, y j) ^ 2 =
        (n : ℚ) ^ 2 * (y i * y i) - ((n : ℚ) * ∑ j, y j) * y i -
          ((n : ℚ) * ∑ j, y j) * y i + (∑ j, y j) * ∑ j, y j := by
      intro i; ring
    rw [Finset.sum_congr rfl fun i _ => hterm i, Finset.sum_add_distrib,
      Finset.sum_sub_distrib, Finset.sum_sub_distrib, ← Finset.mul_sum,
      ← Finset.mul_sum, ← Finset.mul_sum, Finset.sum_const, Finset.card_univ,
      Fintype.card_fin, nsmul_eq_mul]
    field_simp
    ring
  rw [hFG, hFF, hGG] at key
  have hn4 : (0 : ℚ) < (n : ℚ) ^ 4 := by positivity
  have h4 : (n : ℚ) ^ 4 *
      (((∑ i, x i * y i) - (∑ i, x i) * (∑ i, y i) / (n : ℚ)) ^ 2) ≤
      (n : ℚ) ^ 4 *
      (((∑ i, x i * x i) - (∑ i, x i) * (∑ i, x i) / (n : ℚ)) *
        ((∑ i, y i * y i) - (∑ i, y i) * (∑ i, y i) / (n : ℚ))) := by
    calc (n : ℚ) ^ 4 * (((∑ i, x i * y i) - (∑ i, x i) * (∑ i, y i) / (n : ℚ)) ^ 2)
        = ((n : ℚ) ^ 2 * ((∑ i, x i * y i) - (∑ i, x i) * (∑ i, y i) / (n : ℚ))) ^ 2 := by
          ring
      _ ≤ ((n : ℚ) ^ 2 * ((∑ i, x i * x i) - (∑ i, x i) * (∑ i, x i) / (n : ℚ))) *
          ((n : ℚ) ^ 2 * ((∑ i, y i * y i) - (∑ i, y i) * (∑ i, y i) / (n : ℚ))) := key
      _ = _ := by ring
  exact le_of_mul_le_mul_left h4 hn4

/-- The variance-like term is nonnegative (`n·Var` in exact arithmetic). -/
lemma varTerm_nonneg (arr : List ℚ) : 0 ≤ varTerm arr := by
  have hvar : varTerm arr =
      (∑ i : Fin arr.length, arr.get i * arr.get i) -
        (∑ i : Fin arr.length, arr.get i) * (∑ i : Fin arr.length, arr.get i) /
          (arr.length : ℚ) := by
    unfold varTerm
    rw [list_sum_get arr, list_map_sum_get (fun a => a * a) arr]
  rcases Nat.eq_zero_or_pos arr.length with h0 | hpos
  · obtain rfl := List.length_eq_zero.mp h0
    simp [varTerm]
  · have key := Finset.sum_mul_sq_le_sq_mul_sq Finset.univ
      (fun i : Fin arr.length => arr.get i) (fun _ => (1 : ℚ))
    have e1 : ∑ i : Fin arr.length, arr.get i * (1 : ℚ) =
        ∑ i : Fin arr.length, arr.get i := by simp
    have e2 : ∑ i : Fin arr.length, arr.get i ^ 2 =
        ∑ i : Fin arr.length, arr.get i * arr.get i := by
      refine Finset.sum_congr rfl fun i _ => ?_
      ring
    have e3 : ∑ _i : Fin arr.length, ((1 : ℚ)) ^ 2 = (arr.length : ℚ) := by
      simp
    rw [e1, e2, e3] at key
    rw [hvar, sub_nonneg, div_le_iff (by exact_mod_cast hpos)]
    calc (∑ i : Fin arr.length, arr.get i) * ∑ i : Fin arr.length, arr.get i
        = (∑ i : Fin arr.length, arr.get i) ^ 2 := by ring
      _ ≤ (∑ i : Fin arr.length, arr.get i * arr.get i) * (arr.length : ℚ) :=
        key

/-- Cauchy–Schwarz for the code's Pearson terms: the correlation numerator
squared never exceeds the squared denominator. -/
lemma corrNum_sq_le (arr1 arr2 : List ℚ) (h : arr1.length = arr2.length) :
    (corrNum arr1 arr2) ^ 2 ≤ varTerm arr1 * varTerm arr2 := by
  have hkey := pearson_cs arr1.length (fun i => arr1.get i)
    (fun i => arr2.get (Fin.cast h i))
  have h2sum : arr2.sum = ∑ i : Fin arr1.length, arr2.get (Fin.cast h i) := by
    rw [list_sum_get arr2, ← Fin.sum_congr' _ h]
  have h2map : (arr2.map fun a => a * a).sum =
      ∑ i : Fin arr1.length, arr2.get (Fin.cast h i) * arr2.get (Fin.cast h i) := by
    rw [list_map_sum_get (fun a => a * a) arr2,
      ← Fin.sum_congr' (fun i => arr2.get i * arr2.get i) h]
  have hlen2 : ((arr2.length : ℚ)) = ((arr1.length : ℚ)) := by rw [h]
  unfold corrNum varTerm
  rw [list_sum_get arr1, list_map_sum_get (fun a => a * a) arr1,
    list_zipWith_mul_sum arr1 arr2 h, h2sum, h2map, hlen2]
  exact hkey

/-! ## Correlation values carried by matches (claim C6) -/

/-- The squared denominator of any correlation the code computes is
positive (`1` for the zero branches, a nonzero product of nonnegative
variance terms otherwise). -/
lemma calculateCorrelation_denSq_pos (a b : List ℚ) :
    0 < (calculateCorrelation a b).denSq := by
  unfold calculateCorrelation
  dsimp only
  split
  · exact one_pos
  · split
    · exact one_pos
    · next hlen hne =>
      exact lt_of_le_of_ne
        (mul_nonneg (varTerm_nonneg a) (varTerm_nonneg b)) (Ne.symm hne)

/-- Every correlation the code computes satisfies the `≤ 1` predicate. -/
lemma calculateCorrelation_le1 (a b : List ℚ) :
    corrLe1 (calculateCorrelation a b) := by
  unfold calculateCorrelation
  dsimp only
  split
  · exact Or.inl (le_refl 0)
  · next hlen =>
    split
    · exact Or.inl (le_refl 0)
    · exact Or.inr (corrNum_sq_le a b (not_ne_iff.mp hlen))

/-- Semantics of the threshold test: for a nonnegative threshold and a
positive squared denominator, `corrGtB` decides `score > t`. -/
lemma corrGtB_score (c : Corr) (t : ℚ) (hd : 0 < c.denSq) (ht : 0 ≤ t)
    (h : corrGtB c t = true) : (t : ℝ) < Corr.score c := by
  unfold corrGtB at h
  rw [Bool.and_eq_true, decide_eq_true_iff, decide_eq_true_iff] at h
  obtain ⟨hnum, hsq⟩ := h
  unfold Corr.score
  have hdR : (0 : ℝ) < (c.denSq : ℝ) := by exact_mod_cast hd
  have hsqrt : 0 < Real.sqrt (c.denSq : ℝ) := Real.sqrt_pos.mpr hdR
  rw [lt_div_iff hsqrt]
  have h1 : ((t : ℝ) * Real.sqrt (c.denSq : ℝ)) ^ 2 < ((c.num : ℝ)) ^ 2 := by
    rw [mul_pow, Real.sq_sqrt hdR.le]
    exact_mod_cast hsq
  exact lt_of_pow_lt_pow_left₀ 2 (by exact_mod_cast hnum.le) h1

/-- Semantics of the upper bound: for a positive squared denominator,
`corrLe1` means `score ≤ 1`. -/
lemma corrLe1_score (c : Corr) (hd : 0 < c.denSq) (h : corrLe1 c) :
    Corr.score c ≤ 1 := by
  unfold Corr.score
  have hdR : (0 : ℝ) < (c.denSq : ℝ) := by exact_mod_cast hd
  have hsqrt : 0 < Real.sqrt (c.denSq : ℝ) := Real.sqrt_pos.mpr hdR
  rcases h with h | h
  · have hnum : (c.num : ℝ) ≤ 0 := by exact_mod_cast h
    have := div_nonpos_of_nonpos_of_nonneg hnum hsqrt.le
    linarith
  · rw [div_le_one hsqrt]
    rcases le_or_lt (c.num : ℝ) 0 with hn | hn
    · exact hn.trans (Real.sqrt_nonneg _)
    · rw [Real.le_sqrt hn.le hdR.le]
      exact_mod_cast h

/-- Claim C6: every match record the Similarity Matcher produces on the
Segmenter's output carries a correlation score in `(0.99, 1.0]` — strictly
above the threshold and at most 1 — and a cluster's master offset never
appears among its own matches' offsets. -/
theorem claim_C6_correlation (data : List ℚ) (S : ℕ) :
    ∀ cl ∈ findSimilarSegments (segmentData data S), ∀ sm ∈ cl.matchList,
      (99 / 100 : ℝ) < Corr.score sm.correlation ∧
        Corr.score sm.correlation ≤ 1 ∧
        cl.masterPosition ≠ sm.position := by
  intro cl hcl sm hsm
  have hinv := mem_findSimilarSegments _ cl hcl
  have hm := hinv.2.2.2 sm hsm
  have hcorr := hm.2.2.2.1
  have hgt := hm.2.2.2.2
  have hd : 0 < sm.correlation.denSq := by
    rw [hcorr]
    exact calculateCorrelation_denSq_pos _ _
  refine ⟨?_, ?_, ?_⟩
  · have hscore := corrGtB_score sm.correlation (1 - 1 / 100) hd (by norm_num) hgt
    have hc : (((1 : ℚ) - 1 / 100 : ℚ) : ℝ) = 99 / 100 := by norm_num
    rw [hc] at hscore
    exact hscore
  · refine corrLe1_score _ hd ?_
    rw [hcorr]
    exact calculateCorrelation_le1 _ _
  · have hpair := segmentData_pairwise data S
    rw [List.pairwise_iff_getElem] at hpair
    have hlt := hpair cl.masterIndex sm.index hinv.1 hm.2.1 hm.1
    rw [hinv.2.1, hm.2.2.1,
      List.getD_eq_getElem _ _ hinv.1, List.getD_eq_getElem _ _ hm.2.1]
    exact Nat.ne_of_lt hlt

/-- Witness for `claim_C6_correlation` on the concrete match of
`exData7` at segment size 4 (master at offset 0, match at offset 2,
correlation pair `⟨5, 25⟩`, i.e. score `5/√25 = 1`). -/
theorem claim_C6_witness :
    (99 / 100 : ℝ) < Corr.score ⟨5, 25⟩ ∧
      Corr.score ⟨5, 25⟩ ≤ 1 ∧ (0 : ℕ) ≠ 2 :=
  claim_C6_correlation exData7 4
    ⟨0, 0, [0, 1, 2, 3], [⟨1, 2, ⟨5, 25⟩⟩]⟩ (by with_unfolding_all decide)
    ⟨1, 2, ⟨5, 25⟩⟩ (by with_unfolding_all decide)

/-- Claim C1: on every input whose encode succeeds, every offset below the
input length is reachable by at least one record of the produced
structure — inside a master segment's covered range, inside a reference's
covered range, or as a residual record's offset. -/
theorem claim_C1_coverage (data : List ℚ) (st : EncodedStructure)
    (h : (encode data).encoded = some st) :
    ∀ o < data.length, coversOffset st o := by
  obtain ⟨best, rest, hdet, rfl⟩ := encode_encoded_eq data st h
  intro o ho
  have hbest : best ∈ detectFractalPatterns data := by
    rw [hdet]
    exact List.mem_cons_self _ _
  obtain ⟨hS4, hpat, -⟩ := mem_detectFractalPatterns data best hbest
  by_cases hc : o ∈ coveredPositions best.patterns
  · rw [mem_coveredPositions] at hc
    obtain ⟨cl, hcl, hcase⟩ := hc
    have hclpat : cl ∈ findSimilarSegments (segmentData data best.segmentSize) := by
      rw [← hpat]
      exact hcl
    have hinv := mem_findSimilarSegments _ cl hclpat
    have hmlen : cl.masterData.length = best.segmentSize := by
      rw [hinv.2.2.1]
      apply segmentData_data_length data best.segmentSize
      rw [List.getD_eq_getElem _ _ hinv.1]
      exact List.getElem_mem _
    rw [createEncodedStructure_eq]
    rcases hcase with hmp | ⟨sm, hsm, hspos⟩
    · left
      refine ⟨⟨cl.masterPosition, cl.masterData⟩, List.mem_map_of_mem _ hcl, ?_, ?_⟩
      · show cl.masterPosition ≤ o
        omega
      · show o < cl.masterPosition + cl.masterData.length
        omega
    · right
      left
      obtain ⟨k, hk⟩ := List.get_of_mem hcl
      have hksame : best.patterns.get ⟨k.1, k.2⟩ = cl := by
        rw [← hk]
      have href : (⟨0 + k.1, sm.position, sm.correlation⟩ : Reference) ∈
          refsOf 0 best.patterns := by
        apply refsOf_mem_of best.patterns 0 k.1 k.2
        rw [hksame]
        exact hsm
      refine ⟨⟨0 + k.1, sm.position, sm.correlation⟩, href, ?_, ?_⟩
      · show sm.position ≤ o
        omega
      · show o < sm.position +
          ((best.patterns.map fun cl => (⟨cl.masterPosition, cl.masterData⟩ : MasterSeg)).getD
            (0 + k.1) ⟨0, []⟩).data.length
        have hklen : 0 + k.1 <
            (best.patterns.map fun cl =>
              (⟨cl.masterPosition, cl.masterData⟩ : MasterSeg)).length := by
          rw [List.length_map]
          simpa using k.2
        rw [List.getD_eq_getElem _ _ hklen, List.getElem_map]
        have hgetcl : best.patterns[0 + k.1] = cl := by
          have := hksame
          rw [List.get_eq_getElem] at this
          simpa using this
        rw [hgetcl]
        show o < sm.position + cl.masterData.length
        omega
  · rw [createEncodedStructure_eq]
    right
    right
    refine ⟨⟨o, data.getD o 0⟩, ?_, rfl⟩
    apply List.mem_filterMap.mpr
    exact ⟨o, List.mem_range.mpr ho, by rw [if_neg hc]⟩

/-- Witness for `claim_C1_coverage` at offset 3 of the concrete encode of
`exData7`. -/
theorem claim_C1_witness :
    (encode exData7).encoded = some exSt7 ∧ 3 < exData7.length ∧
      coversOffset exSt7 3 :=
  ⟨by with_unfolding_all decide, by decide,
    claim_C1_coverage exData7 exSt7 (by with_unfolding_all decide) 3 (by decide)⟩

/-- Claim C7: the code does not guard the degenerate step.  At segment
size 1 the step `Math.floor(1 * PHI_INV)` is 0 and on any input of length
at least 1 the segmentation loop never terminates (no amount of fuel
completes it), contradicting the required termination for every `S ≥ 1`. -/
theorem claim_C7_divergence :
    ∀ fuel, segmentLoop [(0 : ℚ), 0] 1 (phiInvPowFloor 1 1) 0 fuel = none := by
  have h : phiInvPowFloor 1 1 = 0 := by with_unfolding_all decide
  rw [h]
  exact segmentLoop_step_zero _ _ _ (by simp)

end PhiCodec
